import Mathlib

/-!
Verification of the cron-parser library (`src/lib.rs`).

The development shallowly embeds the two core pieces of the library:

* the field parser `parse_field` (with its helpers `parse_cron_value`,
  the weekday-name table `Dow`, and Rust's `u32::from_str`), and
* the occurrence engine `parse`, which walks a candidate civil timestamp
  forward until all five parsed field sets accept it and the caller's
  timezone can resolve it.

Rust strings are handled as `List Char` internally (mirroring Rust's
`split(char)` / `starts_with` / `trim_start_matches` character-level
semantics); `BTreeSet<u32>` becomes `Finset ℕ`; `DateTime<Utc>` becomes a
civil tuple (UTC civil time and instants are in bijection, and the loop
only ever inspects and rewrites civil fields); `DateTime<TZ>` becomes a
pair of an absolute instant and its civil (zone-local) representation,
exactly the data a chrono zoned datetime carries.  The timezone itself is
the function chrono provides: civil time to none/single/ambiguous
absolute instants.  The unbounded `loop` is given explicit fuel; fuel
sufficiency (termination) is proved separately.
-/

namespace CronParser

/-- Kinds of `std::num::ParseIntError` relevant to `u32::from_str`. -/
inductive IntErrKind where
  | Empty
  | InvalidDigit
  | PosOverflow
deriving DecidableEq, Repr

/-- `ParseError` from `src/lib.rs`. -/
inductive ParseError where
  | InvalidCron
  | InvalidRange
  | InvalidValue
  | ParseIntError (e : IntErrKind)
  | TryFromIntError
  | InvalidTimezone
deriving DecidableEq, Repr

/-- Rust `str::parse::<u32>` (`u32::from_str`): optional single leading
`+`, then one or more ASCII digits, value below `2^32`. -/
def parseU32 (l : List Char) : Except ParseError Nat :=
  if l = [] then .error (.ParseIntError .Empty)
  else
    let ds := if l.head? = some '+' then l.tail else l
    if ds = [] then .error (.ParseIntError .InvalidDigit)
    else if ds.all Char.isDigit then
      let n := ds.foldl (fun a c => a * 10 + (c.toNat - 48)) 0
      if n < 4294967296 then .ok n else .error (.ParseIntError .PosOverflow)
    else .error (.ParseIntError .InvalidDigit)

/-- `Dow::from_str`: case-insensitive three-letter weekday names mapped to
0–6 (Sunday = 0).  Rust uppercases the string and matches the closed table. -/
def dowFromStr (l : List Char) : Option Nat :=
  match l.map Char.toUpper with
  | ['S', 'U', 'N'] => some 0
  | ['M', 'O', 'N'] => some 1
  | ['T', 'U', 'E'] => some 2
  | ['W', 'E', 'D'] => some 3
  | ['T', 'H', 'U'] => some 4
  | ['F', 'R', 'I'] => some 5
  | ['S', 'A', 'T'] => some 6
  | _ => none

/-- `parse_cron_value` from `src/lib.rs`: a weekday name resolves directly
(no bound check); otherwise the numeric literal must lie in `[min,max]`. -/
def parse_cron_value (value : List Char) (min max : Nat) : Except ParseError Nat :=
  match dowFromStr value with
  | some dow => .ok dow
  | none =>
    match parseU32 value with
    | .error e => .error e
    | .ok v => if v < min ∨ v > max then .error .InvalidValue else .ok v

/-- Rust `str::split(pat: char)` generalized to a predicate: splits at every
matching character, keeping empty pieces (`"a,,b" ↦ ["a","","b"]`). -/
def splitP (p : Char → Bool) : List Char → List (List Char)
  | [] => [[]]
  | x :: xs =>
    if p x then [] :: splitP p xs
    else
      match splitP p xs with
      | [] => [[x]]
      | s :: rest => (x :: s) :: rest

/-- Rust `str::trim_start_matches("*/")`: repeatedly strip a leading `*/`. -/
def trimStarSlash : List Char → List Char
  | '*' :: '/' :: rest => trimStarSlash rest
  | l => l

/-- Rust `(a..=b).step_by(k)` collected into a set: the members of `[a,b]`
reachable from `a` in steps of `k`. -/
def stepRange (a b k : Nat) : Finset Nat :=
  (Finset.Icc a b).filter fun v => (v - a) % k = 0

/-- One comma-separated segment of a cron field: the body of the `match` in
`parse_field` (`src/lib.rs` lines 290–374), producing the values the
segment inserts. -/
def segmentValues (f : List Char) (min max : Nat) : Except ParseError (Finset Nat) :=
  if f = ['*'] then
    .ok (Finset.Icc min max)
  else if f.take 2 = ['*', '/'] then
    match parseU32 (trimStarSlash f) with
    | .error e => .error e
    | .ok step =>
      if step = 0 ∨ step > max then .error .InvalidValue
      else .ok (stepRange min max step)
  else if '/' ∈ f then
    match splitP (· = '/') f with
    | [rangePart, stepPart] =>
      (match parseU32 stepPart with
       | .error e => .error e
       | .ok step =>
         if step = 0 ∨ step > max then .error .InvalidValue
         else if '-' ∈ rangePart then
           match splitP (· = '-') rangePart with
           | [startStr, endStr] =>
             (match parse_cron_value startStr min max with
              | .error e => .error e
              | .ok start =>
                match parse_cron_value endStr min max with
                | .error e => .error e
                | .ok stop =>
                  if start > stop then .error .InvalidRange
                  else .ok (stepRange start stop step))
           | _ => .error .InvalidRange
         else
           match parse_cron_value rangePart min max with
           | .error e => .error e
           | .ok start => .ok (stepRange start max step))
    | _ => .error .InvalidRange
  else if '-' ∈ f then
    match splitP (· = '-') f with
    | [startStr, endStr] =>
      (match parse_cron_value startStr min max with
       | .error e => .error e
       | .ok start =>
         match parse_cron_value endStr min max with
         | .error e => .error e
         | .ok stop =>
           if start > stop then .error .InvalidRange
           else .ok (Finset.Icc start stop))
    | _ => .error .InvalidRange
  else
    match parse_cron_value f min max with
    | .error e => .error e
    | .ok v => .ok {v}

/-- The comma fold of `parse_field`: process segments left to right,
accumulating inserted values, stopping at the first error. -/
def fieldFold (min max : Nat) : List (List Char) → Finset Nat → Except ParseError (Finset Nat)
  | [], acc => .ok acc
  | f :: rest, acc =>
    match segmentValues f min max with
    | .error e => .error e
    | .ok vs => fieldFold min max rest (acc ∪ vs)

/-- `parse_field` from `src/lib.rs`: split the field on `,`, drop empty
segments, and union the values of each segment. -/
def parse_field (field : String) (min max : Nat) : Except ParseError (Finset Nat) :=
  fieldFold min max ((splitP (· = ',') field.toList).filter fun s => ¬s.isEmpty) ∅

/-! ## The calendar model

chrono's `DateTime<Utc>` is in bijection with its civil (proleptic
Gregorian, leap-second-free) representation; the engine's loop state is
exactly that civil tuple.  `Duration` additions of whole minutes, hours
and days act on a valid civil tuple as the standard rollover functions
below. -/

/-- A civil timestamp: the `(year, month, day, hour, minute, second)`
fields chrono exposes via `Datelike`/`Timelike`. -/
structure Civil where
  year : Int
  month : Nat
  day : Nat
  hour : Nat
  minute : Nat
  sec : Nat
deriving DecidableEq, Repr

/-- Proleptic Gregorian leap year, as chrono computes it. -/
def isLeapYear (y : Int) : Bool :=
  y % 4 = 0 ∧ (y % 100 ≠ 0 ∨ y % 400 = 0)

/-- Days in a month of the proleptic Gregorian calendar (0 for an invalid
month number, so that no day is valid there). -/
def daysInMonth (y : Int) (m : Nat) : Nat :=
  match m with
  | 1 => 31 | 3 => 31 | 5 => 31 | 7 => 31 | 8 => 31 | 10 => 31 | 12 => 31
  | 4 => 30 | 6 => 30 | 9 => 30 | 11 => 30
  | 2 => if isLeapYear y then 29 else 28
  | _ => 0

/-- The civil tuples that denote an actual instant (what
`Utc.with_ymd_and_hms` accepts). -/
def Civil.Valid (c : Civil) : Prop :=
  1 ≤ c.month ∧ c.month ≤ 12 ∧ 1 ≤ c.day ∧ c.day ≤ daysInMonth c.year c.month ∧
    c.hour ≤ 23 ∧ c.minute ≤ 59 ∧ c.sec ≤ 59

instance (c : Civil) : Decidable c.Valid := by
  unfold Civil.Valid; infer_instance

/-- `make_utc_datetime` from `src/lib.rs`: `Utc.with_ymd_and_hms` is
`Single` on every representable civil tuple and `None` otherwise (UTC has
no ambiguous times), so the `Ambiguous` arm is dead and the `None` arm
yields `InvalidTimezone`. -/
def make_utc_datetime (year : Int) (month day hour minute sec : Nat) :
    Except ParseError Civil :=
  if (⟨year, month, day, hour, minute, sec⟩ : Civil).Valid then
    .ok ⟨year, month, day, hour, minute, sec⟩
  else .error .InvalidTimezone

/-- `dt + Duration::days(1)` on a civil tuple: advance the date, keeping
the time of day. -/
def nextDay (c : Civil) : Civil :=
  if c.day < daysInMonth c.year c.month then { c with day := c.day + 1 }
  else if c.month < 12 then { c with month := c.month + 1, day := 1 }
  else { c with year := c.year + 1, month := 1, day := 1 }

/-- `dt + Duration::hours(1)` on a civil tuple. -/
def nextHour (c : Civil) : Civil :=
  if c.hour < 23 then { c with hour := c.hour + 1 }
  else { nextDay c with hour := 0 }

/-- `dt + Duration::minutes(1)` on a civil tuple. -/
def addMinute (c : Civil) : Civil :=
  if c.minute < 59 then { c with minute := c.minute + 1 }
  else { nextHour c with minute := 0 }

/-- Days from 1970-01-01 of a proleptic Gregorian date (Howard Hinnant's
`days_from_civil`, the algorithm underlying chrono's date arithmetic). -/
def daysFromCivil (y : Int) (m d : Nat) : Int :=
  let y' : Int := if m ≤ 2 then y - 1 else y
  let era : Int := Int.fdiv y' 400
  let yoe : Int := y' - era * 400
  let mp : Int := ((m : Int) + 9) % 12
  let doy : Int := (153 * mp + 2) / 5 + (d : Int) - 1
  let doe : Int := yoe * 365 + yoe / 4 - yoe / 100 + doy
  era * 146097 + doe - 719468

/-- chrono's `weekday().num_days_from_sunday()`: 0 = Sunday … 6 = Saturday
(1970-01-01 was a Thursday). -/
def numDaysFromSunday (y : Int) (m d : Nat) : Nat :=
  ((daysFromCivil y m d + 4).emod 7).toNat

/-! ## The timezone collaborator and the occurrence engine -/

/-- chrono's `LocalResult`: resolving a civil time in a timezone yields no
instant, exactly one, or two (the earlier listed first). -/
inductive LocalRes (α : Type) where
  | Single (a : α)
  | Ambiguous (earlier later : α)
  | NoRes
deriving DecidableEq, Repr

/-- A `DateTime<TZ>`: an absolute instant together with its civil
representation in the attached timezone (chrono stores instant + offset;
`naive_local()` reads off `civil`). -/
structure ZonedDT where
  instant : Int
  civil : Civil
deriving DecidableEq, Repr

/-- The timezone collaborator: `TimeZone::from_local_datetime`, mapping a
civil time to the absolute instants that display as it. -/
structure Timezone where
  fromLocal : Civil → LocalRes Int

/-- Result of one iteration of the `loop` in `parse`. -/
inductive StepRes where
  | err (e : ParseError)
  | done (z : ZonedDT)
  | next (c : Civil)
deriving DecidableEq, Repr

/-- The body of the `loop` in `parse` (`src/lib.rs` lines 155–221), with
`next` the candidate civil timestamp and `dtYear` the reference year:
horizon guard, then month / day-of-month / hour / minute / day-of-week
checks each re-deriving its field set and advancing the candidate on
mismatch, then timezone resolution of the accepted candidate. -/
def loopStep (tz : Timezone) (minuteStr hourStr domStr monthStr dowStr : String)
    (dtYear : Int) (c : Civil) : StepRes :=
  if c.year - dtYear > 4 then .err .InvalidCron
  else
    match parse_field monthStr 1 12 with
    | .error e => .err e
    | .ok monthSet =>
      if c.month ∉ monthSet then
        match make_utc_datetime (if c.month = 12 then c.year + 1 else c.year)
            (if c.month = 12 then 1 else c.month + 1) 1 0 0 0 with
        | .error e => .err e
        | .ok c' => .next c'
      else
        match parse_field domStr 1 31 with
        | .error e => .err e
        | .ok domSet =>
          if c.day ∉ domSet then
            match make_utc_datetime (nextDay c).year (nextDay c).month (nextDay c).day 0 0 0 with
            | .error e => .err e
            | .ok c' => .next c'
          else
            match parse_field hourStr 0 23 with
            | .error e => .err e
            | .ok hourSet =>
              if c.hour ∉ hourSet then
                match make_utc_datetime (nextHour c).year (nextHour c).month
                    (nextHour c).day (nextHour c).hour 0 0 with
                | .error e => .err e
                | .ok c' => .next c'
              else
                match parse_field minuteStr 0 59 with
                | .error e => .err e
                | .ok minuteSet =>
                  if c.minute ∉ minuteSet then .next (addMinute c)
                  else
                    match parse_field dowStr 0 6 with
                    | .error e => .err e
                    | .ok dowSet =>
                      if numDaysFromSunday c.year c.month c.day ∉ dowSet then
                        .next (nextDay c)
                      else
                        match tz.fromLocal c with
                        | .Single i => .done ⟨i, c⟩
                        | .Ambiguous earlier _ => .done ⟨earlier, c⟩
                        | .NoRes => .next (addMinute c)

/-- The `loop` in `parse`, with explicit fuel; `none` means the fuel ran
out (the code's loop is unbounded — fuel sufficiency is proved below). -/
def parseLoop (tz : Timezone) (minuteStr hourStr domStr monthStr dowStr : String)
    (dtYear : Int) : Nat → Civil → Option (Except ParseError ZonedDT)
  | 0, _ => none
  | fuel + 1, c =>
    match loopStep tz minuteStr hourStr domStr monthStr dowStr dtYear c with
    | .err e => some (.error e)
    | .done z => some (.ok z)
    | .next c' => parseLoop tz minuteStr hourStr domStr monthStr dowStr dtYear fuel c'

/-- Rust `str::split_whitespace`: split on whitespace and drop empty
pieces. -/
def splitWs (s : String) : List String :=
  ((splitP Char.isWhitespace s.toList).filter fun l => ¬l.isEmpty).map
    fun l => String.mk l

/-- Fuel that the termination proof shows is never exhausted: one unit per
minute of the six calendar years the search can touch, plus one. -/
def FUEL : Nat := 3214081

/-- `parse` from `src/lib.rs`: split the expression into exactly five
fields, form the initial candidate (reference civil time plus one minute,
seconds truncated — `Utc.from_local_datetime` of a naive datetime is
always `Single`, so lines 140–144 reduce to the minute bump), and run the
search loop. -/
def parse (tz : Timezone) (cron : String) (dt : ZonedDT) :
    Option (Except ParseError ZonedDT) :=
  match splitWs cron with
  | [minuteStr, hourStr, domStr, monthStr, dowStr] =>
    match make_utc_datetime (addMinute dt.civil).year (addMinute dt.civil).month
        (addMinute dt.civil).day (addMinute dt.civil).hour
        (addMinute dt.civil).minute 0 with
    | .error e => some (.error e)
    | .ok c1 =>
      parseLoop tz minuteStr hourStr domStr monthStr dowStr dt.civil.year FUEL c1
  | _ => some (.error .InvalidCron)

/-! ## Order, measure and validity of civil timestamps -/

/-- Strict lexicographic order on civil timestamps: the order of the
instants they denote. -/
def CivilLt (a b : Civil) : Prop :=
  a.year < b.year ∨ (a.year = b.year ∧ (a.month < b.month ∨ (a.month = b.month ∧
    (a.day < b.day ∨ (a.day = b.day ∧ (a.hour < b.hour ∨ (a.hour = b.hour ∧
      (a.minute < b.minute ∨ (a.minute = b.minute ∧ a.sec < b.sec)))))))))

instance (a b : Civil) : Decidable (CivilLt a b) := by
  unfold CivilLt; infer_instance

/-- Reflexive closure of `CivilLt`. -/
def CivilLe (a b : Civil) : Prop := CivilLt a b ∨ a = b

theorem civilLt_trans {a b c : Civil} (h1 : CivilLt a b) (h2 : CivilLt b c) :
    CivilLt a c := by
  unfold CivilLt at *; omega

theorem civilLt_le_trans {a b c : Civil} (h1 : CivilLt a b) (h2 : CivilLe b c) :
    CivilLt a c := by
  rcases h2 with h2 | rfl
  · exact civilLt_trans h1 h2
  · exact h1

/-- Minute index of a civil timestamp inside a fixed year-month grid: a
strictly monotone measure of valid civil timestamps, used to bound the
search loop. -/
def civilIdx (c : Civil) : Int :=
  ((c.year * 12 + (c.month : Int) - 1) * 31 + (c.day : Int) - 1) * 1440 +
    (c.hour : Int) * 60 + (c.minute : Int)

theorem daysInMonth_le (y : Int) (m : Nat) : daysInMonth y m ≤ 31 := by
  unfold daysInMonth
  split
  any_goals omega
  split <;> omega

theorem daysInMonth_pos (y : Int) (m : Nat) (h1 : 1 ≤ m) (h2 : m ≤ 12) :
    1 ≤ daysInMonth y m := by
  interval_cases m <;> simp [daysInMonth]
  split <;> omega

theorem nextDay_valid {c : Civil} (h : c.Valid) : (nextDay c).Valid := by
  obtain ⟨h1, h2, h3, h4, h5, h6, h7⟩ := h
  unfold Civil.Valid nextDay
  by_cases hd : c.day < daysInMonth c.year c.month
  · rw [if_pos hd]; dsimp only; omega
  · rw [if_neg hd]
    by_cases hm : c.month < 12
    · rw [if_pos hm]
      have hp := daysInMonth_pos c.year (c.month + 1) (by omega) (by omega)
      dsimp only; omega
    · rw [if_neg hm]
      have h31 : daysInMonth (c.year + 1) 1 = 31 := rfl
      dsimp only; omega

theorem addMinute_valid {c : Civil} (h : c.Valid) : (addMinute c).Valid := by
  have hnd := nextDay_valid h
  obtain ⟨h1, h2, h3, h4, h5, h6, h7⟩ := h
  obtain ⟨g1, g2, g3, g4, g5, g6, g7⟩ := hnd
  unfold Civil.Valid addMinute nextHour
  by_cases hmi : c.minute < 59
  · rw [if_pos hmi]; dsimp only; omega
  · rw [if_neg hmi]
    by_cases hh : c.hour < 23
    · rw [if_pos hh]; dsimp only; omega
    · rw [if_neg hh]; dsimp only; omega

theorem nextDay_year (c : Civil) :
    c.year ≤ (nextDay c).year ∧ (nextDay c).year ≤ c.year + 1 := by
  unfold nextDay
  by_cases hd : c.day < daysInMonth c.year c.month
  · rw [if_pos hd]; dsimp only; omega
  · rw [if_neg hd]
    by_cases hm : c.month < 12
    · rw [if_pos hm]; dsimp only; omega
    · rw [if_neg hm]; dsimp only; omega

theorem addMinute_year (c : Civil) :
    c.year ≤ (addMinute c).year ∧ (addMinute c).year ≤ c.year + 1 := by
  have hnd := nextDay_year c
  unfold addMinute nextHour
  by_cases hmi : c.minute < 59
  · rw [if_pos hmi]; dsimp only; omega
  · rw [if_neg hmi]
    by_cases hh : c.hour < 23
    · rw [if_pos hh]; dsimp only; omega
    · rw [if_neg hh]; dsimp only; omega

theorem civilLt_nextDay (c : Civil) : CivilLt c (nextDay c) := by
  unfold CivilLt nextDay
  by_cases hd : c.day < daysInMonth c.year c.month
  · rw [if_pos hd]; dsimp only; omega
  · rw [if_neg hd]
    by_cases hm : c.month < 12
    · rw [if_pos hm]; dsimp only; omega
    · rw [if_neg hm]; dsimp only; omega

theorem civilLt_addMinute (c : Civil) : CivilLt c (addMinute c) := by
  unfold CivilLt addMinute nextHour nextDay
  by_cases hmi : c.minute < 59
  · rw [if_pos hmi]; dsimp only; omega
  · rw [if_neg hmi]
    by_cases hh : c.hour < 23
    · rw [if_pos hh]; dsimp only; omega
    · rw [if_neg hh]
      by_cases hd : c.day < daysInMonth c.year c.month
      · rw [if_pos hd]; dsimp only; omega
      · rw [if_neg hd]
        by_cases hm : c.month < 12
        · rw [if_pos hm]; dsimp only; omega
        · rw [if_neg hm]; dsimp only; omega

theorem civilIdx_nextDay {c : Civil} (h : c.Valid) :
    civilIdx c < civilIdx (nextDay c) := by
  obtain ⟨h1, h2, h3, h4, h5, h6, h7⟩ := h
  have h8 := daysInMonth_le c.year c.month
  unfold civilIdx nextDay
  by_cases hd : c.day < daysInMonth c.year c.month
  · rw [if_pos hd]; dsimp only; omega
  · rw [if_neg hd]
    by_cases hm : c.month < 12
    · rw [if_pos hm]; dsimp only; omega
    · rw [if_neg hm]; dsimp only; omega

theorem civilIdx_addMinute {c : Civil} (h : c.Valid) :
    civilIdx c < civilIdx (addMinute c) := by
  obtain ⟨h1, h2, h3, h4, h5, h6, h7⟩ := h
  have h8 := daysInMonth_le c.year c.month
  unfold civilIdx addMinute nextHour nextDay
  by_cases hmi : c.minute < 59
  · rw [if_pos hmi]; dsimp only; omega
  · rw [if_neg hmi]
    by_cases hh : c.hour < 23
    · rw [if_pos hh]; dsimp only; omega
    · rw [if_neg hh]
      by_cases hd : c.day < daysInMonth c.year c.month
      · rw [if_pos hd]; dsimp only; omega
      · rw [if_neg hd]
        by_cases hm : c.month < 12
        · rw [if_pos hm]; dsimp only; omega
        · rw [if_neg hm]; dsimp only; omega

theorem make_ok {y : Int} {mo d h mi s : Nat} {c : Civil}
    (heq : make_utc_datetime y mo d h mi s = .ok c) :
    c = ⟨y, mo, d, h, mi, s⟩ ∧ c.Valid := by
  unfold make_utc_datetime at heq
  split at heq
  · cases heq
    next hv => exact ⟨rfl, hv⟩
  · cases heq

theorem nextDay_sec (c : Civil) : (nextDay c).sec = c.sec := by
  unfold nextDay; split
  · rfl
  · split <;> rfl

theorem addMinute_sec (c : Civil) : (addMinute c).sec = c.sec := by
  have h := nextDay_sec c
  unfold addMinute nextHour
  split
  · rfl
  · split
    · rfl
    · exact h

/-- The candidate built when the month constraint fails: first day of the
following month at midnight. -/
def monthAdv (c : Civil) : Civil :=
  ⟨if c.month = 12 then c.year + 1 else c.year,
    if c.month = 12 then 1 else c.month + 1, 1, 0, 0, 0⟩

/-- The candidate built when the day-of-month constraint fails: the next
day at midnight. -/
def dayAdv (c : Civil) : Civil :=
  ⟨(nextDay c).year, (nextDay c).month, (nextDay c).day, 0, 0, 0⟩

/-- The candidate built when the hour constraint fails: the next hour at
minute zero. -/
def hourAdv (c : Civil) : Civil :=
  ⟨(nextHour c).year, (nextHour c).month, (nextHour c).day, (nextHour c).hour, 0, 0⟩

theorem civilLt_monthAdv (c : Civil) : CivilLt c (monthAdv c) := by
  unfold CivilLt monthAdv
  by_cases h12 : c.month = 12
  · rw [if_pos h12, if_pos h12]; dsimp only; omega
  · rw [if_neg h12, if_neg h12]; dsimp only; omega

theorem civilIdx_monthAdv {c : Civil} (h : c.Valid) :
    civilIdx c < civilIdx (monthAdv c) := by
  obtain ⟨h1, h2, h3, h4, h5, h6, h7⟩ := h
  have h8 := daysInMonth_le c.year c.month
  unfold civilIdx monthAdv
  by_cases h12 : c.month = 12
  · rw [if_pos h12, if_pos h12]; dsimp only; omega
  · rw [if_neg h12, if_neg h12]; dsimp only; omega

theorem civilLt_dayAdv (c : Civil) : CivilLt c (dayAdv c) := by
  unfold CivilLt dayAdv nextDay
  by_cases hd : c.day < daysInMonth c.year c.month
  · rw [if_pos hd]; dsimp only; omega
  · rw [if_neg hd]
    by_cases hm : c.month < 12
    · rw [if_pos hm]; dsimp only; omega
    · rw [if_neg hm]; dsimp only; omega

theorem civilIdx_dayAdv {c : Civil} (h : c.Valid) :
    civilIdx c < civilIdx (dayAdv c) := by
  obtain ⟨h1, h2, h3, h4, h5, h6, h7⟩ := h
  have h8 := daysInMonth_le c.year c.month
  unfold civilIdx dayAdv nextDay
  by_cases hd : c.day < daysInMonth c.year c.month
  · rw [if_pos hd]; dsimp only; omega
  · rw [if_neg hd]
    by_cases hm : c.month < 12
    · rw [if_pos hm]; dsimp only; omega
    · rw [if_neg hm]; dsimp only; omega

theorem civilLt_hourAdv (c : Civil) : CivilLt c (hourAdv c) := by
  unfold CivilLt hourAdv nextHour nextDay
  by_cases hh : c.hour < 23
  · rw [if_pos hh]; dsimp only; omega
  · rw [if_neg hh]
    by_cases hd : c.day < daysInMonth c.year c.month
    · rw [if_pos hd]; dsimp only; omega
    · rw [if_neg hd]
      by_cases hm : c.month < 12
      · rw [if_pos hm]; dsimp only; omega
      · rw [if_neg hm]; dsimp only; omega

theorem civilIdx_hourAdv {c : Civil} (h : c.Valid) :
    civilIdx c < civilIdx (hourAdv c) := by
  obtain ⟨h1, h2, h3, h4, h5, h6, h7⟩ := h
  have h8 := daysInMonth_le c.year c.month
  unfold civilIdx hourAdv nextHour nextDay
  by_cases hh : c.hour < 23
  · rw [if_pos hh]; dsimp only; omega
  · rw [if_neg hh]
    by_cases hd : c.day < daysInMonth c.year c.month
    · rw [if_pos hd]; dsimp only; omega
    · rw [if_neg hd]
      by_cases hm : c.month < 12
      · rw [if_pos hm]; dsimp only; omega
      · rw [if_neg hm]; dsimp only; omega

/-! ## Characterizing the loop -/

/-- All five parsed field sets accept the civil timestamp `c` (day-of-month
AND day-of-week; the weekday is counted from Sunday). -/
def Matches (minuteStr hourStr domStr monthStr dowStr : String) (c : Civil) : Prop :=
  ∃ minuteSet hourSet domSet monthSet dowSet : Finset Nat,
    parse_field minuteStr 0 59 = .ok minuteSet ∧
    parse_field hourStr 0 23 = .ok hourSet ∧
    parse_field domStr 1 31 = .ok domSet ∧
    parse_field monthStr 1 12 = .ok monthSet ∧
    parse_field dowStr 0 6 = .ok dowSet ∧
    c.minute ∈ minuteSet ∧ c.hour ∈ hourSet ∧ c.day ∈ domSet ∧
    c.month ∈ monthSet ∧ numDaysFromSunday c.year c.month c.day ∈ dowSet

theorem parseLoop_zero (tz : Timezone) (ms hs ds mos dws : String) (Y : Int)
    (c : Civil) : parseLoop tz ms hs ds mos dws Y 0 c = none := rfl

theorem parseLoop_succ (tz : Timezone) (ms hs ds mos dws : String) (Y : Int)
    (fuel : Nat) (c : Civil) :
    parseLoop tz ms hs ds mos dws Y (fuel + 1) c =
      match loopStep tz ms hs ds mos dws Y c with
      | .err e => some (.error e)
      | .done z => some (.ok z)
      | .next c' => parseLoop tz ms hs ds mos dws Y fuel c' := rfl

/-- Every advancing iteration of the loop strictly increases the candidate,
preserves a zero seconds field, happens inside the year horizon, and (from
a valid candidate) preserves validity and strictly increases the minute
measure. -/
theorem loopStep_next_spec {tz : Timezone} {ms hs ds mos dws : String} {Y : Int}
    {c c' : Civil} (h : loopStep tz ms hs ds mos dws Y c = .next c') :
    CivilLt c c' ∧ (c.sec = 0 → c'.sec = 0) ∧ c.year - Y ≤ 4 ∧
      (c.Valid → c'.Valid ∧ civilIdx c < civilIdx c') := by
  unfold loopStep at h
  split at h
  · exact absurd h (by simp)
  next hguard =>
  split at h
  · exact absurd h (by simp)
  next monthSet hmonth =>
  split at h
  · -- month mismatch: advance to the first of the next month
    split at h
    · exact absurd h (by simp)
    next cX hmk =>
      obtain ⟨hcx, hvX⟩ := make_ok hmk
      cases h
      subst hcx
      exact ⟨civilLt_monthAdv c, fun _ => rfl, by omega,
        fun hv => ⟨hvX, civilIdx_monthAdv hv⟩⟩
  next hmonthMem =>
  split at h
  · exact absurd h (by simp)
  next domSet hdom =>
  split at h
  · -- day-of-month mismatch: advance to the next day at midnight
    split at h
    · exact absurd h (by simp)
    next cX hmk =>
      obtain ⟨hcx, hvX⟩ := make_ok hmk
      cases h
      subst hcx
      exact ⟨civilLt_dayAdv c, fun _ => rfl, by omega,
        fun hv => ⟨hvX, civilIdx_dayAdv hv⟩⟩
  next hdomMem =>
  split at h
  · exact absurd h (by simp)
  next hourSet hhour =>
  split at h
  · -- hour mismatch: advance to the next hour at minute zero
    split at h
    · exact absurd h (by simp)
    next cX hmk =>
      obtain ⟨hcx, hvX⟩ := make_ok hmk
      cases h
      subst hcx
      exact ⟨civilLt_hourAdv c, fun _ => rfl, by omega,
        fun hv => ⟨hvX, civilIdx_hourAdv hv⟩⟩
  next hhourMem =>
  split at h
  · exact absurd h (by simp)
  next minuteSet hminute =>
  split at h
  · -- minute mismatch: advance one minute
    cases h
    exact ⟨civilLt_addMinute c, fun hs0 => (addMinute_sec c).trans hs0, by omega,
      fun hv => ⟨addMinute_valid hv, civilIdx_addMinute hv⟩⟩
  next hminuteMem =>
  split at h
  · exact absurd h (by simp)
  next dowSet hdow =>
  split at h
  · -- day-of-week mismatch: advance one day
    cases h
    exact ⟨civilLt_nextDay c, fun hs0 => (nextDay_sec c).trans hs0, by omega,
      fun hv => ⟨nextDay_valid hv, civilIdx_nextDay hv⟩⟩
  next hdowMem =>
  split at h
  · exact absurd h (by simp)
  · exact absurd h (by simp)
  · -- non-existent local time: advance one minute and re-enter the loop
    cases h
    exact ⟨civilLt_addMinute c, fun hs0 => (addMinute_sec c).trans hs0, by omega,
      fun hv => ⟨addMinute_valid hv, civilIdx_addMinute hv⟩⟩

/-- When the loop accepts, the returned zoned datetime carries exactly the
accepted civil candidate, all five field sets accept it, and the instant is
the single or the earlier resolution of that civil time. -/
theorem loopStep_done_spec {tz : Timezone} {ms hs ds mos dws : String} {Y : Int}
    {c : Civil} {z : ZonedDT} (h : loopStep tz ms hs ds mos dws Y c = .done z) :
    z.civil = c ∧ Matches ms hs ds mos dws c ∧
      (tz.fromLocal c = .Single z.instant ∨
        ∃ later, tz.fromLocal c = .Ambiguous z.instant later) := by
  unfold loopStep at h
  split at h
  · exact absurd h (by simp)
  next hguard =>
  split at h
  · exact absurd h (by simp)
  next monthSet hmonth =>
  split at h
  · split at h
    · exact absurd h (by simp)
    · exact absurd h (by simp)
  next hmonthMem =>
  split at h
  · exact absurd h (by simp)
  next domSet hdom =>
  split at h
  · split at h
    · exact absurd h (by simp)
    · exact absurd h (by simp)
  next hdomMem =>
  split at h
  · exact absurd h (by simp)
  next hourSet hhour =>
  split at h
  · split at h
    · exact absurd h (by simp)
    · exact absurd h (by simp)
  next hhourMem =>
  split at h
  · exact absurd h (by simp)
  next minuteSet hminute =>
  split at h
  · exact absurd h (by simp)
  next hminuteMem =>
  split at h
  · exact absurd h (by simp)
  next dowSet hdow =>
  split at h
  · exact absurd h (by simp)
  next hdowMem =>
  split at h
  next i htz =>
    cases h
    refine ⟨rfl, ?_, Or.inl htz⟩
    exact ⟨minuteSet, hourSet, domSet, monthSet, dowSet, hminute, hhour, hdom,
      hmonth, hdow, by simpa using hminuteMem, by simpa using hhourMem,
      by simpa using hdomMem, by simpa using hmonthMem, by simpa using hdowMem⟩
  next i j htz =>
    cases h
    refine ⟨rfl, ?_, Or.inr ⟨j, htz⟩⟩
    exact ⟨minuteSet, hourSet, domSet, monthSet, dowSet, hminute, hhour, hdom,
      hmonth, hdow, by simpa using hminuteMem, by simpa using hhourMem,
      by simpa using hdomMem, by simpa using hmonthMem, by simpa using hdowMem⟩
  · exact absurd h (by simp)

theorem civilIdx_upper {c : Civil} (h : c.Valid) :
    civilIdx c ≤ c.year * 535680 + 535679 := by
  obtain ⟨h1, h2, h3, h4, h5, h6, h7⟩ := h
  have h8 := daysInMonth_le c.year c.month
  unfold civilIdx; omega

theorem civilIdx_lower {c : Civil} (h : c.Valid) :
    c.year * 535680 ≤ civilIdx c := by
  obtain ⟨h1, h2, h3, h4, h5, h6, h7⟩ := h
  unfold civilIdx; omega

/-- Whatever the loop returns as a success, its civil part is at or after
the starting candidate, inherits a zero seconds field, satisfies all five
field sets, and resolves as the single or earlier instant of its civil
time. -/
theorem parseLoop_ok_spec {tz : Timezone} {ms hs ds mos dws : String} {Y : Int} :
    ∀ (fuel : Nat) (c : Civil) (z : ZonedDT),
      parseLoop tz ms hs ds mos dws Y fuel c = some (.ok z) →
      CivilLe c z.civil ∧ (c.sec = 0 → z.civil.sec = 0) ∧
        Matches ms hs ds mos dws z.civil ∧
        (tz.fromLocal z.civil = .Single z.instant ∨
          ∃ later, tz.fromLocal z.civil = .Ambiguous z.instant later) := by
  intro fuel
  induction fuel with
  | zero => intro c z h; rw [parseLoop_zero] at h; cases h
  | succ n ih =>
    intro c z h
    rw [parseLoop_succ] at h
    split at h
    · exact absurd h (by simp)
    · next z0 hstep =>
        cases h
        obtain ⟨hciv, hm, hres⟩ := loopStep_done_spec hstep
        rw [hciv]
        exact ⟨Or.inr rfl, fun hs0 => hs0, hm, hres⟩
    · next c0 hstep =>
        obtain ⟨hlt, hsec, _, _⟩ := loopStep_next_spec hstep
        obtain ⟨hle, hsec', hm, hres⟩ := ih c0 z h
        exact ⟨Or.inl (civilLt_le_trans hlt hle), fun hs0 => hsec' (hsec hs0), hm, hres⟩

/-- With fuel exceeding the minute distance to the end of the six-year
horizon box, the loop cannot run out of fuel: it always delivers a result
or an error. -/
theorem parseLoop_total {tz : Timezone} {ms hs ds mos dws : String} {Y : Int} :
    ∀ (fuel : Nat) (c : Civil), c.Valid →
      ((Y + 6) * 535680 - civilIdx c).toNat < fuel →
      parseLoop tz ms hs ds mos dws Y fuel c ≠ none := by
  intro fuel
  induction fuel with
  | zero => intro c _ hfuel; omega
  | succ n ih =>
    intro c hv hfuel
    rw [parseLoop_succ]
    split
    · simp
    · simp
    · next c0 hstep =>
        obtain ⟨_, _, hyear, hvp⟩ := loopStep_next_spec hstep
        obtain ⟨hv0, hidx⟩ := hvp hv
        have hub := civilIdx_upper hv
        apply ih c0 hv0
        omega

/-- The initial candidate of the search (`next` after lines 140–153 of
`src/lib.rs`): the reference civil time plus one minute, seconds
truncated to zero. -/
def initAdv (c : Civil) : Civil :=
  ⟨(addMinute c).year, (addMinute c).month, (addMinute c).day,
    (addMinute c).hour, (addMinute c).minute, 0⟩

theorem civilLt_initAdv (c : Civil) : CivilLt c (initAdv c) := by
  unfold CivilLt initAdv addMinute nextHour nextDay
  by_cases hmi : c.minute < 59
  · rw [if_pos hmi]; dsimp only; omega
  · rw [if_neg hmi]
    by_cases hh : c.hour < 23
    · rw [if_pos hh]; dsimp only; omega
    · rw [if_neg hh]
      by_cases hd : c.day < daysInMonth c.year c.month
      · rw [if_pos hd]; dsimp only; omega
      · rw [if_neg hd]
        by_cases hm : c.month < 12
        · rw [if_pos hm]; dsimp only; omega
        · rw [if_neg hm]; dsimp only; omega

/-- `parse` never runs out of fuel: the search aborts at the year horizon
if nothing matches, so the fuel of `FUEL` minutes is never exhausted. -/
theorem parse_total (tz : Timezone) (cron : String) (dt : ZonedDT) :
    parse tz cron dt ≠ none := by
  unfold parse
  split
  · next ms hs ds mos dws heq =>
      split
      · simp
      · next c1 hmk =>
          obtain ⟨hc1, hv1⟩ := make_ok hmk
          apply parseLoop_total FUEL c1 hv1
          have hlow := civilIdx_lower hv1
          have hyear : dt.civil.year ≤ c1.year := by
            rw [hc1]
            exact (addMinute_year dt.civil).1
          unfold FUEL
          omega
  · simp

/-- Everything `parse` returns with `Ok`: the result's civil time is
strictly later than the reference civil time, has seconds zero, satisfies
all five field sets, and its instant is the single or earlier resolution
of its civil time in the caller's timezone. -/
theorem parse_ok_spec {tz : Timezone} {cron : String} {dt : ZonedDT}
    {t : ZonedDT} {ms hs ds mos dws : String}
    (hsplit : splitWs cron = [ms, hs, ds, mos, dws])
    (h : parse tz cron dt = some (.ok t)) :
    CivilLt dt.civil t.civil ∧ t.civil.sec = 0 ∧
      Matches ms hs ds mos dws t.civil ∧
      (tz.fromLocal t.civil = .Single t.instant ∨
        ∃ later, tz.fromLocal t.civil = .Ambiguous t.instant later) := by
  unfold parse at h
  rw [hsplit] at h
  dsimp only at h
  split at h
  · exact absurd h (by simp)
  · next c1 hmk =>
      obtain ⟨hc1, _⟩ := make_ok hmk
      obtain ⟨hle, hsec, hm, hres⟩ := parseLoop_ok_spec FUEL c1 t h
      have hlt : CivilLt dt.civil c1 := by
        rw [hc1]; exact civilLt_initAdv dt.civil
      have hsec0 : c1.sec = 0 := by rw [hc1]
      exact ⟨civilLt_le_trans hlt hle, hsec hsec0, hm, hres⟩

/-! ## Properties of the field parser -/

theorem dowFromStr_le6 {l : List Char} {d : Nat} (h : dowFromStr l = some d) :
    d ≤ 6 := by
  unfold dowFromStr at h
  split at h <;> first | (cases h; omega) | cases h

theorem parse_cron_value_le {l : List Char} {mn mx v : Nat}
    (h : parse_cron_value l mn mx = .ok v) : v ≤ mx ∨ v ≤ 6 := by
  unfold parse_cron_value at h
  split at h
  · next hdow => cases h; exact Or.inr (dowFromStr_le6 hdow)
  · split at h
    · cases h
    · split at h
      · cases h
      · cases h
        next hrange _ => exact Or.inl (by omega)

theorem mem_stepRange {a b k v : Nat} :
    v ∈ stepRange a b k ↔ a ≤ v ∧ v ≤ b ∧ (v - a) % k = 0 := by
  unfold stepRange
  simp [Finset.mem_filter, Finset.mem_Icc, and_assoc]

theorem segmentValues_le {f : List Char} {mn mx : Nat} {vs : Finset Nat}
    (h : segmentValues f mn mx = .ok vs) : ∀ v ∈ vs, v ≤ mx ∨ v ≤ 6 := by
  unfold segmentValues at h
  split at h
  · cases h
    intro v hv
    exact Or.inl (Finset.mem_Icc.mp hv).2
  split at h
  · -- */step
    split at h
    · cases h
    · split at h
      · cases h
      · cases h
        intro v hv
        exact Or.inl (mem_stepRange.mp hv).2.1
  split at h
  · -- range/step or start/step
    split at h
    · split at h
      · cases h
      · split at h
        · cases h
        · split at h
          · -- start-end/step
            split at h
            · split at h
              · cases h
              · split at h
                · cases h
                · next hstop =>
                    split at h
                    · cases h
                    · cases h
                      intro v hv
                      rcases parse_cron_value_le hstop with hc | hc
                      · exact Or.inl (le_trans (mem_stepRange.mp hv).2.1 hc)
                      · exact Or.inr (le_trans (mem_stepRange.mp hv).2.1 hc)
            · cases h
          · -- start/step
            split at h
            · cases h
            · cases h
              intro v hv
              exact Or.inl (mem_stepRange.mp hv).2.1
    · cases h
  split at h
  · -- start-end
    split at h
    · split at h
      · cases h
      · split at h
        · cases h
        · next hstop =>
            split at h
            · cases h
            · cases h
              intro v hv
              rcases parse_cron_value_le hstop with hc | hc
              · exact Or.inl (le_trans (Finset.mem_Icc.mp hv).2 hc)
              · exact Or.inr (le_trans (Finset.mem_Icc.mp hv).2 hc)
    · cases h
  · -- bare value
    split at h
    · cases h
    · next hval =>
        cases h
        intro v hv
        rw [Finset.mem_singleton] at hv
        subst hv
        exact parse_cron_value_le hval

theorem fieldFold_le {mn mx : Nat} :
    ∀ (segs : List (List Char)) (acc s : Finset Nat),
      fieldFold mn mx segs acc = .ok s → (∀ v ∈ acc, v ≤ mx ∨ v ≤ 6) →
      ∀ v ∈ s, v ≤ mx ∨ v ≤ 6 := by
  intro segs
  induction segs with
  | nil =>
    intro acc s h hacc
    cases h
    exact hacc
  | cons f rest ih =>
    intro acc s h hacc
    unfold fieldFold at h
    split at h
    · cases h
    · next vs hseg =>
        refine ih (acc ∪ vs) s h ?_
        intro v hv
        rcases Finset.mem_union.mp hv with hv | hv
        · exact hacc v hv
        · exact segmentValues_le hseg v hv

/-- Every member of a successfully parsed field set is bounded by the
field's `max`, except for weekday-name values, which are at most 6. -/
theorem parse_field_le {text : String} {mn mx : Nat} {s : Finset Nat}
    (h : parse_field text mn mx = .ok s) : ∀ v ∈ s, v ≤ mx ∨ v ≤ 6 :=
  fieldFold_le _ _ _ h (by intro v hv; cases hv)

/-- `parse_field "*"` is exactly the full inclusive range `[min, max]`. -/
theorem parse_field_star (mn mx : Nat) :
    parse_field "*" mn mx = .ok (Finset.Icc mn mx) := by
  have hsplit : ((splitP (· = ',') "*".toList).filter fun s => ¬s.isEmpty) =
      [['*']] := by decide
  unfold parse_field
  rw [hsplit]
  unfold fieldFold segmentValues
  rw [if_pos rfl]
  unfold fieldFold
  rw [Finset.empty_union]

/-! ## String plumbing for the grammar theorems -/

theorem parseU32_chars {l : List Char} {n : Nat} (h : parseU32 l = .ok n) :
    l ≠ [] ∧ ∀ ch ∈ l, ch = '+' ∨ ch.isDigit = true := by
  unfold parseU32 at h
  split at h
  · cases h
  next hne =>
  refine ⟨hne, ?_⟩
  dsimp only at h
  by_cases hplus : l.head? = some '+'
  · rw [if_pos hplus] at h
    split at h
    · cases h
    split at h
    · next hall =>
        split at h
        · cases l with
          | nil => exact absurd rfl hne
          | cons a as =>
            simp at hplus
            subst hplus
            intro ch hch
            rcases List.mem_cons.mp hch with hch | hch
            · exact Or.inl hch
            · exact Or.inr (List.all_eq_true.mp hall _ (by simpa using hch))
        · cases h
    · cases h
  · rw [if_neg hplus] at h
    split at h
    · cases h
    split at h
    · next hall =>
        split at h
        · intro ch hch
          exact Or.inr (List.all_eq_true.mp hall _ (by simpa using hch))
        · cases h
    · cases h

theorem chars_from_upper_tbl {l tbl : List Char} (heq : l.map Char.toUpper = tbl)
    (hcomma : ',' ∉ tbl) (hdash : '-' ∉ tbl) (hslash : '/' ∉ tbl)
    (hstar : '*' ∉ tbl) :
    ∀ ch ∈ l, ch ≠ ',' ∧ ch ≠ '-' ∧ ch ≠ '/' ∧ ch ≠ '*' := by
  intro ch hch
  have hup : Char.toUpper ch ∈ tbl := heq ▸ List.mem_map_of_mem _ hch
  have e1 : Char.toUpper ',' = ',' := by decide
  have e2 : Char.toUpper '-' = '-' := by decide
  have e3 : Char.toUpper '/' = '/' := by decide
  have e4 : Char.toUpper '*' = '*' := by decide
  refine ⟨?_, ?_, ?_, ?_⟩ <;> intro hcc <;> subst hcc
  · rw [e1] at hup; exact hcomma hup
  · rw [e2] at hup; exact hdash hup
  · rw [e3] at hup; exact hslash hup
  · rw [e4] at hup; exact hstar hup

theorem parse_cron_value_chars {l : List Char} {mn mx v : Nat}
    (h : parse_cron_value l mn mx = .ok v) :
    l ≠ [] ∧ ∀ ch ∈ l, ch ≠ ',' ∧ ch ≠ '-' ∧ ch ≠ '/' ∧ ch ≠ '*' := by
  unfold parse_cron_value at h
  split at h
  · next hdow =>
      unfold dowFromStr at hdow
      split at hdow <;>
        first
        | (next heq =>
            refine ⟨?_, chars_from_upper_tbl heq (by decide) (by decide)
              (by decide) (by decide)⟩
            intro h0
            rw [h0] at heq
            cases heq)
        | exact absurd hdow (by simp)
  · split at h
    · cases h
    · next hu32 =>
        obtain ⟨hne, hch⟩ := parseU32_chars hu32
        refine ⟨hne, ?_⟩
        intro ch hmem
        rcases hch ch hmem with hplus | hdig
        · subst hplus
          exact ⟨by decide, by decide, by decide, by decide⟩
        · refine ⟨?_, ?_, ?_, ?_⟩ <;> (intro hcc; subst hcc; simp at hdig)

theorem splitP_single {p : Char → Bool} {l : List Char}
    (h : ∀ ch ∈ l, p ch = false) : splitP p l = [l] := by
  induction l with
  | nil => rfl
  | cons a as ih =>
    simp only [splitP]
    rw [if_neg (by simp [h a (by simp)]), ih fun ch hch => h ch (by simp [hch])]

theorem splitP_append {p : Char → Bool} {xs : List Char}
    (h : ∀ ch ∈ xs, p ch = false) {sep : Char} (hsep : p sep = true)
    (rest : List Char) : splitP p (xs ++ sep :: rest) = xs :: splitP p rest := by
  induction xs with
  | nil =>
    rw [List.nil_append]
    simp only [splitP]
    rw [if_pos hsep]
  | cons a as ih =>
    have ha : p a = false := h a (by simp)
    rw [List.cons_append]
    simp only [splitP]
    rw [if_neg (by simp [ha]), ih fun ch hch => h ch (by simp [hch])]

theorem trimStarSlash_of_head {l : List Char} (h : l.head? ≠ some '*') :
    trimStarSlash l = l := by
  unfold trimStarSlash
  split
  · next x rest => exact absurd rfl h
  · rfl

theorem fieldFold_single (mn mx : Nat) (f : List Char) :
    fieldFold mn mx [f] ∅ = segmentValues f mn mx := by
  unfold fieldFold
  split
  · next heq => rw [heq]
  · next vs heq =>
      rw [heq]
      unfold fieldFold
      rw [Finset.empty_union]

theorem toList_append (a b : String) :
    (a ++ b).toList = a.toList ++ b.toList := String.data_append a b

theorem take2_head {l : List Char} (h : l.take 2 = ['*', '/']) :
    l.head? = some '*' := by
  cases l with
  | nil => cases h
  | cons a as =>
    rw [List.take_succ_cons, List.cons.injEq] at h
    rw [show (a :: as).head? = some a from rfl, h.1]

/-- A field whose text contains no comma is handled as one grammar
segment. -/
theorem parse_field_single_segment {text : String} {mn mx : Nat}
    (hne : text.toList ≠ []) (hnc : ∀ ch ∈ text.toList, ch ≠ ',') :
    parse_field text mn mx = segmentValues text.toList mn mx := by
  unfold parse_field
  rw [splitP_single fun ch hch => by simp [hnc ch hch]]
  rw [show ([text.toList].filter fun s => ¬s.isEmpty) = [text.toList] by
    simp [List.isEmpty_iff]
    exact hne]
  exact fieldFold_single mn mx text.toList

/-- The `*/step` grammar rule (`src/lib.rs` lines 299–309): with a step
token that parses as the number `N`, the segment is rejected for `N = 0`
or `N > max` and otherwise contributes exactly the multiples of `N`
counted from `min`. -/
theorem parse_field_star_step {s : String} {N mn mx : Nat}
    (hN : parseU32 s.toList = .ok N) :
    parse_field ("*/" ++ s) mn mx =
      if N = 0 ∨ N > mx then .error .InvalidValue
      else .ok (stepRange mn mx N) := by
  obtain ⟨hne, hch⟩ := parseU32_chars hN
  have hL : ("*/" ++ s).toList = '*' :: '/' :: s.toList := by
    rw [toList_append]; rfl
  have hnc : ∀ ch ∈ ("*/" ++ s).toList, ch ≠ ',' := by
    rw [hL]
    intro ch hmem
    rw [List.mem_cons, List.mem_cons] at hmem
    rcases hmem with rfl | rfl | hmem
    · decide
    · decide
    · rcases hch ch hmem with rfl | hdig
      · decide
      · intro hcc; subst hcc; simp at hdig
  rw [parse_field_single_segment (by rw [hL]; simp) hnc, hL]
  unfold segmentValues
  rw [if_neg (by simp)]
  rw [if_pos (show List.take 2 ('*' :: '/' :: s.toList) = ['*', '/'] from rfl)]
  have htrim : trimStarSlash ('*' :: '/' :: s.toList) = s.toList := by
    show trimStarSlash s.toList = s.toList
    apply trimStarSlash_of_head
    cases hsl : s.toList with
    | nil => exact absurd hsl hne
    | cons a as =>
      rcases hch a (by rw [hsl]; simp) with rfl | hdig
      · simp
      · simp only [List.head?]
        intro hcc
        rw [Option.some_inj] at hcc
        subst hcc
        simp at hdig
  rw [htrim, hN]

/-- `0 < N` characterization of the `*/N` value set: exactly
`{min, min+N, min+2N, …} ∩ [min, max]`. -/
theorem mem_stepRange_iff {mn mx N v : Nat} :
    v ∈ stepRange mn mx N ↔ mn ≤ v ∧ v ≤ mx ∧ ∃ k, v = mn + k * N := by
  rw [mem_stepRange]
  constructor
  · rintro ⟨h1, h2, h3⟩
    refine ⟨h1, h2, ?_⟩
    obtain ⟨k, hk⟩ := Nat.dvd_of_mod_eq_zero h3
    rw [Nat.mul_comm] at hk
    exact ⟨k, by omega⟩
  · rintro ⟨h1, h2, k, hk⟩
    refine ⟨h1, h2, ?_⟩
    subst hk
    rw [show mn + k * N - mn = k * N by omega]
    exact Nat.mul_mod_left k N

/-- The `a-b` grammar rule (`src/lib.rs` lines 352–367): with operands
resolved by `parse_cron_value` (numeric literals bound-checked, weekday
names not), the segment errors on a reversed range and otherwise
contributes the inclusive range. -/
theorem parse_field_range {sa sb : String} {mn mx a b : Nat}
    (ha : parse_cron_value sa.toList mn mx = .ok a)
    (hb : parse_cron_value sb.toList mn mx = .ok b) :
    parse_field (sa ++ "-" ++ sb) mn mx =
      if a > b then .error .InvalidRange else .ok (Finset.Icc a b) := by
  obtain ⟨hane, hach⟩ := parse_cron_value_chars ha
  obtain ⟨hbne, hbch⟩ := parse_cron_value_chars hb
  have hL : (sa ++ "-" ++ sb).toList = sa.toList ++ '-' :: sb.toList := by
    rw [toList_append, toList_append]
    simp
  have hmem : ∀ ch ∈ sa.toList ++ '-' :: sb.toList,
      ch = '-' ∨ ch ∈ sa.toList ∨ ch ∈ sb.toList := by
    intro ch hm
    rcases List.mem_append.mp hm with hm | hm
    · exact Or.inr (Or.inl hm)
    · rcases List.mem_cons.mp hm with hm | hm
      · exact Or.inl hm
      · exact Or.inr (Or.inr hm)
  have hnc : ∀ ch ∈ (sa ++ "-" ++ sb).toList, ch ≠ ',' := by
    rw [hL]
    intro ch hm
    rcases hmem ch hm with rfl | hm | hm
    · decide
    · exact (hach ch hm).1
    · exact (hbch ch hm).1
  rw [parse_field_single_segment (by rw [hL]; simp) hnc, hL]
  unfold segmentValues
  have hhead : (sa.toList ++ '-' :: sb.toList).head? ≠ some '*' := by
    cases hsl : sa.toList with
    | nil => exact absurd hsl hane
    | cons x xs =>
      have hx : x ≠ '*' := (hach x (by rw [hsl]; simp)).2.2.2
      simp [hx]
  rw [if_neg (by intro hstar; rw [hstar] at hhead; exact hhead rfl)]
  rw [if_neg (by intro htk; exact hhead (take2_head htk))]
  rw [if_neg (by
    intro hslash
    rcases hmem _ hslash with hcc | hm | hm
    · cases hcc
    · exact (hach _ hm).2.2.1 rfl
    · exact (hbch _ hm).2.2.1 rfl)]
  rw [if_pos (by simp)]
  rw [splitP_append (fun ch hch => by simp [(hach ch hch).2.1]) (by simp)
    sb.toList]
  rw [splitP_single fun ch hch => by simp [(hbch ch hch).2.1]]
  dsimp only
  rw [ha, hb]

/-- A second `-` in one comma segment is a range error
(`src/lib.rs` lines 353–356: `split('-')` must give exactly two pieces). -/
theorem parse_field_double_dash {sa sb sc : String} {mn mx a b c : Nat}
    (ha : parse_cron_value sa.toList mn mx = .ok a)
    (hb : parse_cron_value sb.toList mn mx = .ok b)
    (hc : parse_cron_value sc.toList mn mx = .ok c) :
    parse_field (sa ++ "-" ++ sb ++ "-" ++ sc) mn mx = .error .InvalidRange := by
  obtain ⟨hane, hach⟩ := parse_cron_value_chars ha
  obtain ⟨hbne, hbch⟩ := parse_cron_value_chars hb
  obtain ⟨hcne, hcch⟩ := parse_cron_value_chars hc
  have hL : (sa ++ "-" ++ sb ++ "-" ++ sc).toList =
      sa.toList ++ '-' :: (sb.toList ++ '-' :: sc.toList) := by
    rw [toList_append, toList_append, toList_append, toList_append]
    show sa.toList ++ ['-'] ++ sb.toList ++ ['-'] ++ sc.toList = _
    simp
  have hmem : ∀ ch ∈ sa.toList ++ '-' :: (sb.toList ++ '-' :: sc.toList),
      ch = '-' ∨ ch ∈ sa.toList ∨ ch ∈ sb.toList ∨ ch ∈ sc.toList := by
    intro ch hm
    rcases List.mem_append.mp hm with hm | hm
    · exact Or.inr (Or.inl hm)
    · rcases List.mem_cons.mp hm with hm | hm
      · exact Or.inl hm
      · rcases List.mem_append.mp hm with hm | hm
        · exact Or.inr (Or.inr (Or.inl hm))
        · rcases List.mem_cons.mp hm with hm | hm
          · exact Or.inl hm
          · exact Or.inr (Or.inr (Or.inr hm))
  have hnc : ∀ ch ∈ (sa ++ "-" ++ sb ++ "-" ++ sc).toList, ch ≠ ',' := by
    rw [hL]
    intro ch hm
    rcases hmem ch hm with rfl | hm | hm | hm
    · decide
    · exact (hach ch hm).1
    · exact (hbch ch hm).1
    · exact (hcch ch hm).1
  rw [parse_field_single_segment (by rw [hL]; simp) hnc, hL]
  unfold segmentValues
  have hhead : (sa.toList ++ '-' :: (sb.toList ++ '-' :: sc.toList)).head? ≠
      some '*' := by
    cases hsl : sa.toList with
    | nil => exact absurd hsl hane
    | cons x xs =>
      have hx : x ≠ '*' := (hach x (by rw [hsl]; simp)).2.2.2
      simp [hx]
  rw [if_neg (by intro hstar; rw [hstar] at hhead; exact hhead rfl)]
  rw [if_neg (by intro htk; exact hhead (take2_head htk))]
  rw [if_neg (by
    intro hslash
    rcases hmem _ hslash with hcc | hm | hm | hm
    · cases hcc
    · exact (hach _ hm).2.2.1 rfl
    · exact (hbch _ hm).2.2.1 rfl
    · exact (hcch _ hm).2.2.1 rfl)]
  rw [if_pos (by simp)]
  rw [splitP_append (fun ch hch => by simp [(hach ch hch).2.1]) (by simp) _]
  rw [splitP_append (fun ch hch => by simp [(hbch ch hch).2.1]) (by simp) _]
  rw [splitP_single fun ch hch => by simp [(hcch ch hch).2.1]]

end CronParser

namespace CronParser

/-! ## First-use behavior of the loop and matched candidates -/

theorem initAdv_valid {c : Civil} (hv : c.Valid) : (initAdv c).Valid := by
  obtain ⟨h1, h2, h3, h4, h5, h6, h7⟩ := addMinute_valid hv
  exact ⟨h1, h2, h3, h4, h5, h6, Nat.zero_le 59⟩

theorem make_initAdv {c : Civil} (hv : c.Valid) :
    make_utc_datetime (addMinute c).year (addMinute c).month (addMinute c).day
      (addMinute c).hour (addMinute c).minute 0 = .ok (initAdv c) := by
  have hval := initAdv_valid hv
  unfold initAdv at hval ⊢
  unfold make_utc_datetime
  rw [if_pos hval]

/-- With a valid reference and a five-field expression, `parse` is the
search loop started at the reference civil time plus one minute. -/
theorem parse_eq_loop {tz : Timezone} {cron : String} {dt : ZonedDT}
    {ms hs ds mos dws : String}
    (hsplit : splitWs cron = [ms, hs, ds, mos, dws]) (hv : dt.civil.Valid) :
    parse tz cron dt =
      parseLoop tz ms hs ds mos dws dt.civil.year FUEL (initAdv dt.civil) := by
  unfold parse
  rw [hsplit]
  dsimp only
  rw [make_initAdv hv]

theorem initAdv_year (c : Civil) :
    c.year ≤ (initAdv c).year ∧ (initAdv c).year ≤ c.year + 1 :=
  addMinute_year c

theorem FUEL_succ : FUEL = 3214080 + 1 := rfl

/-- A malformed month field surfaces its parse error on the very first
iteration, whatever the candidate inside the horizon. -/
theorem loopStep_month_err {tz : Timezone} {ms hs ds mos dws : String}
    {Y : Int} {c : Civil} {e : ParseError} (hg : c.year - Y ≤ 4)
    (he : parse_field mos 1 12 = .error e) :
    loopStep tz ms hs ds mos dws Y c = .err e := by
  unfold loopStep
  rw [if_neg (by omega)]
  simp only [he]

theorem mem_Icc_month {c : Civil} (hv : c.Valid) : c.month ∈ Finset.Icc 1 12 :=
  Finset.mem_Icc.mpr ⟨hv.1, hv.2.1⟩

theorem mem_Icc_day {c : Civil} (hv : c.Valid) : c.day ∈ Finset.Icc 1 31 := by
  have h31 := daysInMonth_le c.year c.month
  obtain ⟨h1, h2, h3, h4, h5, h6, h7⟩ := hv
  exact Finset.mem_Icc.mpr ⟨h3, by omega⟩

theorem mem_Icc_hour {c : Civil} (hv : c.Valid) : c.hour ∈ Finset.Icc 0 23 :=
  Finset.mem_Icc.mpr ⟨Nat.zero_le _, hv.2.2.2.2.1⟩

theorem mem_Icc_minute {c : Civil} (hv : c.Valid) : c.minute ∈ Finset.Icc 0 59 :=
  Finset.mem_Icc.mpr ⟨Nat.zero_le _, hv.2.2.2.2.2.1⟩

/-- A malformed day-of-month field surfaces its parse error on first use:
the first iteration in which the month constraint holds — here with the
month field `*`, immediately. -/
theorem loopStep_dom_err {tz : Timezone} {ms hs ds dws : String}
    {Y : Int} {c : Civil} {e : ParseError} (hv : c.Valid) (hg : c.year - Y ≤ 4)
    (he : parse_field ds 1 31 = .error e) :
    loopStep tz ms hs ds "*" dws Y c = .err e := by
  have hmo := mem_Icc_month hv
  unfold loopStep
  rw [if_neg (by omega)]
  simp [parse_field_star, hmo, he]

/-- A malformed hour field surfaces its parse error on first use — here
with the month and day-of-month fields `*`, immediately. -/
theorem loopStep_hour_err {tz : Timezone} {ms hs dws : String}
    {Y : Int} {c : Civil} {e : ParseError} (hv : c.Valid) (hg : c.year - Y ≤ 4)
    (he : parse_field hs 0 23 = .error e) :
    loopStep tz ms hs "*" "*" dws Y c = .err e := by
  have hmo := mem_Icc_month hv
  have hdy := mem_Icc_day hv
  unfold loopStep
  rw [if_neg (by omega)]
  simp [parse_field_star, hmo, hdy, he]

/-- A malformed minute field surfaces its parse error on first use — here
with the month, day-of-month and hour fields `*`, immediately. -/
theorem loopStep_minute_err {tz : Timezone} {ms dws : String}
    {Y : Int} {c : Civil} {e : ParseError} (hv : c.Valid) (hg : c.year - Y ≤ 4)
    (he : parse_field ms 0 59 = .error e) :
    loopStep tz ms "*" "*" "*" dws Y c = .err e := by
  have hmo := mem_Icc_month hv
  have hdy := mem_Icc_day hv
  have hhr := mem_Icc_hour hv
  unfold loopStep
  rw [if_neg (by omega)]
  simp [parse_field_star, hmo, hdy, hhr, he]

/-- A malformed day-of-week field surfaces its parse error on first use —
here with the four other fields `*`, immediately. -/
theorem loopStep_dow_err {tz : Timezone} {dws : String}
    {Y : Int} {c : Civil} {e : ParseError} (hv : c.Valid) (hg : c.year - Y ≤ 4)
    (he : parse_field dws 0 6 = .error e) :
    loopStep tz "*" "*" "*" "*" dws Y c = .err e := by
  have hmo := mem_Icc_month hv
  have hdy := mem_Icc_day hv
  have hhr := mem_Icc_hour hv
  have hmi := mem_Icc_minute hv
  unfold loopStep
  rw [if_neg (by omega)]
  simp [parse_field_star, hmo, hdy, hhr, hmi, he]

/-- `parse` succeeds only on five-field expressions. -/
theorem parse_ok_split {tz : Timezone} {cron : String} {dt t : ZonedDT}
    (h : parse tz cron dt = some (.ok t)) :
    ∃ ms hs ds mos dws, splitWs cron = [ms, hs, ds, mos, dws] := by
  unfold parse at h
  split at h
  · next ms hs ds mos dws heq => exact ⟨ms, hs, ds, mos, dws, heq⟩
  · exact absurd h (by simp)

/-- On a candidate inside the horizon that satisfies all five field sets,
the iteration is exactly the timezone resolution of the candidate:
`Single` and `Ambiguous` (keeping the earlier instant) accept, `NoRes`
advances one minute. -/
theorem loopStep_matched (tz : Timezone) {ms hs ds mos dws : String}
    {Y : Int} {c : Civil} (hg : c.year - Y ≤ 4)
    (hm : Matches ms hs ds mos dws c) :
    loopStep tz ms hs ds mos dws Y c =
      match tz.fromLocal c with
      | .Single i => .done ⟨i, c⟩
      | .Ambiguous earlier _ => .done ⟨earlier, c⟩
      | .NoRes => .next (addMinute c) := by
  obtain ⟨mset, hset, dset, moset, dwset, hms, hhs, hds, hmos, hdws,
    hmme, hhme, hdme, hmome, hdwme⟩ := hm
  unfold loopStep
  rw [if_neg (by omega)]
  simp [hmos, hds, hhs, hms, hdws, hmome, hdme, hhme, hmme, hdwme]

end CronParser

namespace CronParser

/-! ## Concrete instances used by the witnesses and counterexamples -/

/-- Seconds since the Unix epoch of a civil timestamp read as UTC. -/
def secsOfCivil (c : Civil) : Int :=
  daysFromCivil c.year c.month c.day * 86400 +
    (c.hour : Int) * 3600 + (c.minute : Int) * 60 + (c.sec : Int)

/-- The UTC timezone: every valid civil time denotes exactly one
instant. -/
def utcTZ : Timezone := ⟨fun c => if c.Valid then .Single (secsOfCivil c) else .NoRes⟩

/-- A model of America/Chicago around its 2019-11-03 fall-back
transition: wall-clock times in the 01:xx hour of that day occur twice —
first at UTC offset -05:00 (CDT), then at -06:00 (CST); earlier wall
times are CDT, later ones CST. -/
def foldTZ : Timezone :=
  ⟨fun c =>
    if c.year = 2019 ∧ c.month = 11 ∧ c.day = 3 ∧ c.hour = 1 then
      .Ambiguous (secsOfCivil c + 18000) (secsOfCivil c + 21600)
    else if CivilLt c ⟨2019, 11, 3, 1, 0, 0⟩ then .Single (secsOfCivil c + 18000)
    else .Single (secsOfCivil c + 21600)⟩

/-- A reference instant: 2019-11-05 15:56:35 UTC. -/
def ref2019 : ZonedDT := ⟨1572969395, ⟨2019, 11, 5, 15, 56, 35⟩⟩

/-- A reference inside the repeated hour of `foldTZ`: the later (CST)
instant whose wall clock reads 2019-11-03 01:30:00. -/
def foldRef : ZonedDT := ⟨1572766200, ⟨2019, 11, 3, 1, 30, 0⟩⟩

end CronParser

namespace CronParser

/-- `Char.toUpper` fixes ASCII digits (they are outside the lowercase
range it maps). -/
theorem toUpper_eq_of_digit {c : Char} (h : c.isDigit = true) :
    c.toUpper = c := by
  unfold Char.toUpper
  rw [if_neg]
  unfold Char.isDigit at h
  rw [Bool.and_eq_true, decide_eq_true_eq, decide_eq_true_eq] at h
  intro hcon
  have h1 : 97 ≤ Char.toNat c := hcon.1
  have h3 : c.val.toNat ≤ (57 : UInt32).toNat := UInt32.le_def.mp h.2
  have h4 : (57 : UInt32).toNat = 57 := rfl
  unfold Char.toNat at h1
  omega

theorem map_toUpper_no_letter {l : List Char}
    (hch : ∀ ch ∈ l, ch = '+' ∨ ch.isDigit = true) {A : Char}
    (hA : A.isDigit = false) (hA2 : A ≠ '+') (rest : List Char) :
    l.map Char.toUpper ≠ A :: rest := by
  intro heq
  have hmem : A ∈ l.map Char.toUpper := by
    rw [heq]
    exact List.mem_cons_self _ _
  obtain ⟨ch, hchl, hchu⟩ := List.mem_map.mp hmem
  rcases hch ch hchl with rfl | hdig
  · rw [show Char.toUpper '+' = '+' from by decide] at hchu
    exact hA2 hchu.symm
  · rw [toUpper_eq_of_digit hdig] at hchu
    subst hchu
    rw [hdig] at hA
    cases hA

/-- A token accepted by `u32::from_str` is never a weekday name: its
characters (an optional `+` and digits) are fixed by uppercasing and
none of them is a letter. -/
theorem dowFromStr_none_of_parseU32 {l : List Char} {n : Nat}
    (h : parseU32 l = .ok n) : dowFromStr l = none := by
  obtain ⟨hne, hch⟩ := parseU32_chars h
  unfold dowFromStr
  split <;>
    first
    | rfl
    | (next heq =>
        exact absurd heq (map_toUpper_no_letter hch (by decide) (by decide) _))

/-- The characters of a token accepted by `u32::from_str` contain none of
the grammar separators. -/
theorem parseU32_token_chars {l : List Char} {n : Nat}
    (h : parseU32 l = .ok n) :
    l ≠ [] ∧ ∀ ch ∈ l, ch ≠ ',' ∧ ch ≠ '-' ∧ ch ≠ '/' ∧ ch ≠ '*' := by
  obtain ⟨hne, hch⟩ := parseU32_chars h
  refine ⟨hne, fun ch hmem => ?_⟩
  rcases hch ch hmem with rfl | hdig
  · exact ⟨by decide, by decide, by decide, by decide⟩
  · refine ⟨?_, ?_, ?_, ?_⟩ <;> (intro hcc; subst hcc; simp at hdig)

/-- `parse_cron_value` on a numeric literal outside `[min, max]` is the
value error (`src/lib.rs` lines 385–389). -/
theorem parse_cron_value_invalid {l : List Char} {mn mx v : Nat}
    (h : parseU32 l = .ok v) (hout : v < mn ∨ mx < v) :
    parse_cron_value l mn mx = .error .InvalidValue := by
  unfold parse_cron_value
  rw [dowFromStr_none_of_parseU32 h]
  simp only [h]
  rw [if_pos hout]

/-- A clean `a-b` segment (both operand tokens free of separators) is
handled by the range branch: the result is `parse_cron_value` on the
start, then on the end, then the reversed-range check. -/
theorem parse_field_range_shape {sa sb : String} {mn mx : Nat}
    (hane : sa.toList ≠ [])
    (hach : ∀ ch ∈ sa.toList, ch ≠ ',' ∧ ch ≠ '-' ∧ ch ≠ '/' ∧ ch ≠ '*')
    (hbne : sb.toList ≠ [])
    (hbch : ∀ ch ∈ sb.toList, ch ≠ ',' ∧ ch ≠ '-' ∧ ch ≠ '/' ∧ ch ≠ '*') :
    parse_field (sa ++ "-" ++ sb) mn mx =
      match parse_cron_value sa.toList mn mx with
      | .error e => .error e
      | .ok start =>
        match parse_cron_value sb.toList mn mx with
        | .error e => .error e
        | .ok stop =>
          if start > stop then .error .InvalidRange
          else .ok (Finset.Icc start stop) := by
  have hL : (sa ++ "-" ++ sb).toList = sa.toList ++ '-' :: sb.toList := by
    rw [toList_append, toList_append]
    simp
  have hmem : ∀ ch ∈ sa.toList ++ '-' :: sb.toList,
      ch = '-' ∨ ch ∈ sa.toList ∨ ch ∈ sb.toList := by
    intro ch hm
    rcases List.mem_append.mp hm with hm | hm
    · exact Or.inr (Or.inl hm)
    · rcases List.mem_cons.mp hm with hm | hm
      · exact Or.inl hm
      · exact Or.inr (Or.inr hm)
  have hnc : ∀ ch ∈ (sa ++ "-" ++ sb).toList, ch ≠ ',' := by
    rw [hL]
    intro ch hm
    rcases hmem ch hm with rfl | hm | hm
    · decide
    · exact (hach ch hm).1
    · exact (hbch ch hm).1
  rw [parse_field_single_segment (by rw [hL]; simp) hnc, hL]
  unfold segmentValues
  have hhead : (sa.toList ++ '-' :: sb.toList).head? ≠ some '*' := by
    cases hsl : sa.toList with
    | nil => exact absurd hsl hane
    | cons x xs =>
      have hx : x ≠ '*' := (hach x (by rw [hsl]; simp)).2.2.2
      simp [hx]
  rw [if_neg (by intro hstar; rw [hstar] at hhead; exact hhead rfl)]
  rw [if_neg (by intro htk; exact hhead (take2_head htk))]
  rw [if_neg (by
    intro hslash
    rcases hmem _ hslash with hcc | hm | hm
    · cases hcc
    · exact (hach _ hm).2.2.1 rfl
    · exact (hbch _ hm).2.2.1 rfl)]
  rw [if_pos (by simp)]
  rw [splitP_append (fun ch hch => by simp [(hach ch hch).2.1]) (by simp)
    sb.toList]
  rw [splitP_single fun ch hch => by simp [(hbch ch hch).2.1]]

/-- A range whose start token is a numeric literal outside `[min, max]`
is rejected with the value error. -/
theorem parse_field_range_start_err {sa sb : String} {mn mx a b : Nat}
    (ha : parseU32 sa.toList = .ok a) (hout : a < mn ∨ mx < a)
    (hb : parse_cron_value sb.toList mn mx = .ok b) :
    parse_field (sa ++ "-" ++ sb) mn mx = .error .InvalidValue := by
  obtain ⟨hane, hach⟩ := parseU32_token_chars ha
  obtain ⟨hbne, hbch⟩ := parse_cron_value_chars hb
  rw [parse_field_range_shape hane hach hbne hbch,
    parse_cron_value_invalid ha hout]

/-- A range whose end token is a numeric literal outside `[min, max]` is
rejected with the value error. -/
theorem parse_field_range_end_err {sa sb : String} {mn mx a b : Nat}
    (ha : parse_cron_value sa.toList mn mx = .ok a)
    (hb : parseU32 sb.toList = .ok b) (hout : b < mn ∨ mx < b) :
    parse_field (sa ++ "-" ++ sb) mn mx = .error .InvalidValue := by
  obtain ⟨hane, hach⟩ := parse_cron_value_chars ha
  obtain ⟨hbne, hbch⟩ := parseU32_token_chars hb
  rw [parse_field_range_shape hane hach hbne hbch]
  simp only [ha]
  rw [parse_cron_value_invalid hb hout]

instance {e a : Type} [DecidableEq e] [DecidableEq a] : DecidableEq (Except e a) := fun x y =>
  match x, y with
  | .ok u, .ok v =>
    if h : u = v then .isTrue (by rw [h]) else .isFalse (by simp [h])
  | .error u, .error v =>
    if h : u = v then .isTrue (by rw [h]) else .isFalse (by simp [h])
  | .ok _, .error _ => .isFalse (by simp)
  | .error _, .ok _ => .isFalse (by simp)

/-! ## The claims -/

/-- C1: whenever `parse` returns `Ok(t)`, the civil fields of `t` in the
caller's timezone satisfy all five parsed field sets simultaneously:
minute in `parse_field(minute, 0, 59)`, hour in `parse_field(hour, 0,
23)`, day in `parse_field(dom, 1, 31)`, month in `parse_field(month, 1,
12)`, and the weekday counted from Sunday in `parse_field(dow, 0, 6)` —
day-of-month and day-of-week both required (logical AND). -/
theorem c1_ok_satisfies_all_five_fields
    (tz : Timezone) (cron : String) (dt t : ZonedDT)
    (ms hs ds mos dws : String)
    (hsplit : splitWs cron = [ms, hs, ds, mos, dws])
    (h : parse tz cron dt = some (.ok t)) :
    Matches ms hs ds mos dws t.civil :=
  (parse_ok_spec hsplit h).2.2.1

/-- Witness for C1: the concrete run `"* * * * *"` from
2019-11-05 15:56:35 UTC returns 15:57:00, which all five (full) field
sets accept. -/
theorem c1_witness :
    Matches "*" "*" "*" "*" "*"
      (ZonedDT.mk 1572969420 ⟨2019, 11, 5, 15, 57, 0⟩).civil :=
  c1_ok_satisfies_all_five_fields utcTZ "* * * * *" ref2019
    ⟨1572969420, ⟨2019, 11, 5, 15, 57, 0⟩⟩ "*" "*" "*" "*" "*"
    (by decide) (by rfl)

/-- C2 counterexample: the claim "the returned instant is strictly later
than the reference instant, even when the final civil candidate is
ambiguous" is false.  With the reference in the later (CST) pass of the
repeated hour of the 2019 fall-back transition, `parse` accepts the next
wall-clock minute and deterministically picks the earlier (CDT) instant,
which is 59 minutes before the reference instant. -/
theorem c2_counterexample :
    parse foldTZ "* * * * *" foldRef =
      some (.ok ⟨1572762660, ⟨2019, 11, 3, 1, 31, 0⟩⟩) ∧
    (1572762660 : Int) < foldRef.instant := by
  constructor
  · rfl
  · decide

/-- C2 (amended): whenever `parse` returns `Ok(t)`, the civil (wall
clock) time of `t` is strictly later than the civil time of the
reference; the absolute instant can precede the reference when the
reference lies in the later pass of a repeated hour. -/
theorem c2_amended_civil_strictly_later
    (tz : Timezone) (cron : String) (dt t : ZonedDT)
    (h : parse tz cron dt = some (.ok t)) :
    CivilLt dt.civil t.civil := by
  obtain ⟨ms, hs, ds, mos, dws, hsplit⟩ := parse_ok_split h
  exact (parse_ok_spec hsplit h).1

/-- Witness for C2 (amended): the concrete `"*/5 * * * *"` run advances
15:56:35 to 16:00:00 — a strictly later civil time. -/
theorem c2_witness :
    CivilLt ref2019.civil
      (ZonedDT.mk 1572969600 ⟨2019, 11, 5, 16, 0, 0⟩).civil :=
  c2_amended_civil_strictly_later utcTZ "*/5 * * * *" ref2019
    ⟨1572969600, ⟨2019, 11, 5, 16, 0, 0⟩⟩ (by rfl)

/-- C10: on success the returned instant always has seconds equal to
zero, regardless of the seconds of the reference instant: the initial
candidate truncates seconds and every advance moves by whole minutes,
hours, days or months-at-midnight. -/
theorem c10_seconds_zero (tz : Timezone) (cron : String) (dt t : ZonedDT)
    (h : parse tz cron dt = some (.ok t)) : t.civil.sec = 0 := by
  obtain ⟨ms, hs, ds, mos, dws, hsplit⟩ := parse_ok_split h
  exact (parse_ok_spec hsplit h).2.1

/-- Witness for C10: the reference has seconds 35; the result has
seconds 0. -/
theorem c10_witness :
    (ZonedDT.mk 1572969600 ⟨2019, 11, 5, 16, 0, 0⟩).civil.sec = 0 :=
  c10_seconds_zero utcTZ "*/5 * * * *" ref2019
    ⟨1572969600, ⟨2019, 11, 5, 16, 0, 0⟩⟩ (by rfl)

end CronParser

namespace CronParser

/-- C3: `parse` terminates on every input — each iteration strictly
advances the candidate (`loopStep_next_spec`), so the loop's fuel is
never exhausted — and whenever the candidate's year exceeds the
reference year by more than 4 the search aborts with an error instead of
iterating further. -/
theorem c3_parse_terminates :
    (∀ (tz : Timezone) (cron : String) (dt : ZonedDT), parse tz cron dt ≠ none) ∧
    (∀ (tz : Timezone) (ms hs ds mos dws : String) (Y : Int) (fuel : Nat)
      (c : Civil), 4 < c.year - Y →
      parseLoop tz ms hs ds mos dws Y (fuel + 1) c =
        some (.error .InvalidCron)) := by
  constructor
  · exact parse_total
  · intro tz ms hs ds mos dws Y fuel c hy
    rw [parseLoop_succ]
    unfold loopStep
    rw [if_pos (by omega)]

/-- Witness for C3: the calendar-impossible `"0 0 30 2 *"` yields a
result (not fuel exhaustion), and a candidate past the horizon aborts
with the error immediately. -/
theorem c3_witness :
    (parse utcTZ "0 0 30 2 *" ref2019 ≠ none) ∧
    parseLoop utcTZ "*" "*" "*" "*" "*" 2019 1 ⟨2026, 1, 1, 0, 0, 0⟩ =
      some (.error .InvalidCron) :=
  ⟨c3_parse_terminates.1 utcTZ "0 0 30 2 *" ref2019,
   c3_parse_terminates.2 utcTZ "*" "*" "*" "*" "*" 2019 0
     ⟨2026, 1, 1, 0, 0, 0⟩ (by decide)⟩

/-- C4 counterexample: the claim "every integer in the returned set lies
within [min,max], including for bare weekday names" is false: weekday
names bypass the bound check in `parse_cron_value`, so the day-of-month
field text `"Sun"` parses to `{0}` although `0 < 1 = min`. -/
theorem c4_counterexample :
    parse_field "Sun" 1 31 = .ok {0} ∧ (0 : Nat) ∉ Finset.Icc 1 31 := by
  constructor
  · decide
  · decide

/-- C4 (amended): every member of a returned field set is at most
`max(max, 6)` — members escape `[min, max]` only through weekday-name
resolution, which contributes its 0–6 value unchecked — and
`parse_field("*", min, max)` is exactly the full inclusive range. -/
theorem c4_amended_bounds :
    (∀ (text : String) (mn mx : Nat) (s : Finset Nat),
      parse_field text mn mx = .ok s → ∀ v ∈ s, v ≤ mx ∨ v ≤ 6) ∧
    (∀ mn mx : Nat, parse_field "*" mn mx = .ok (Finset.Icc mn mx)) :=
  ⟨fun _ _ _ _ h => parse_field_le h, parse_field_star⟩

/-- Witness for C4 (amended): `"40-50"` over `[0,59]` parses and every
member is at most the max; `"*"` over `[0,59]` is the full range. -/
theorem c4_witness :
    (∀ v ∈ (Finset.Icc 40 50 : Finset Nat), v ≤ 59 ∨ v ≤ 6) ∧
    parse_field "*" 0 59 = .ok (Finset.Icc 0 59) :=
  ⟨c4_amended_bounds.1 "40-50" 0 59 (Finset.Icc 40 50) (by decide),
   c4_amended_bounds.2 0 59⟩

/-- C5: when all five constraints hold on a civil candidate (inside the
horizon), the loop resolves it with the three-outcome policy: a unique
instant is returned; an ambiguous civil time deterministically returns
the earlier of the two instants; a non-existent civil time is not an
error — the candidate advances one minute and the whole constraint loop
re-enters. -/
theorem c5_three_outcome_resolution
    (tz : Timezone) (ms hs ds mos dws : String) (Y : Int) (fuel : Nat)
    (c : Civil) (hg : c.year - Y ≤ 4) (hm : Matches ms hs ds mos dws c) :
    (∀ i, tz.fromLocal c = .Single i →
      parseLoop tz ms hs ds mos dws Y (fuel + 1) c = some (.ok ⟨i, c⟩)) ∧
    (∀ i j, tz.fromLocal c = .Ambiguous i j →
      parseLoop tz ms hs ds mos dws Y (fuel + 1) c = some (.ok ⟨i, c⟩)) ∧
    (tz.fromLocal c = .NoRes →
      parseLoop tz ms hs ds mos dws Y (fuel + 1) c =
        parseLoop tz ms hs ds mos dws Y fuel (addMinute c)) := by
  have hstep := loopStep_matched tz hg hm
  refine ⟨?_, ?_, ?_⟩
  · intro i hi
    rw [parseLoop_succ, hstep, hi]
  · intro i j hij
    rw [parseLoop_succ, hstep, hij]
  · intro hno
    rw [parseLoop_succ, hstep, hno]

/-- Witness for C5: the all-wildcard schedule at the ambiguous wall time
2019-11-03 01:31 resolves deterministically to the earlier (CDT)
instant. -/
theorem c5_witness :
    parseLoop foldTZ "*" "*" "*" "*" "*" 2019 1 ⟨2019, 11, 3, 1, 31, 0⟩ =
      some (.ok ⟨1572762660, ⟨2019, 11, 3, 1, 31, 0⟩⟩) :=
  (c5_three_outcome_resolution foldTZ "*" "*" "*" "*" "*" 2019 0
    ⟨2019, 11, 3, 1, 31, 0⟩ (by decide)
    ⟨Finset.Icc 0 59, Finset.Icc 0 23, Finset.Icc 1 31, Finset.Icc 1 12,
      Finset.Icc 0 6, parse_field_star 0 59, parse_field_star 0 23,
      parse_field_star 1 31, parse_field_star 1 12, parse_field_star 0 6,
      by decide, by decide, by decide, by decide, by decide⟩).2.1
    1572762660 1572766260 (by decide)

/-- C6: `parse_field("*/N", min, max)` is exactly
`{min, min+N, min+2N, …} ∩ [min, max]`; it errors (with the
value-error kind) when `N = 0` or `N > max`; a non-numeric step token is
a numeric conversion error. -/
theorem c6_star_step (s : String) (N mn mx : Nat)
    (hN : parseU32 s.toList = .ok N) :
    (parse_field ("*/" ++ s) mn mx =
      if N = 0 ∨ N > mx then .error .InvalidValue
      else .ok (stepRange mn mx N)) ∧
    (∀ v : Nat, v ∈ stepRange mn mx N ↔ mn ≤ v ∧ v ≤ mx ∧ ∃ k, v = mn + k * N) ∧
    parse_field "*/Fri" 0 6 = .error (.ParseIntError .InvalidDigit) :=
  ⟨parse_field_star_step hN, fun _ => mem_stepRange_iff, by decide⟩

/-- Witness for C6: `"*/15"` over `[0,59]` is `{0, 15, 30, 45}`. -/
theorem c6_witness : parse_field ("*/" ++ "15") 0 59 = .ok {0, 15, 30, 45} := by
  have h := (c6_star_step "15" 15 0 59 (by decide)).1
  rw [if_neg (by decide)] at h
  rw [h]
  decide

/-- C7 counterexample: the claim "a range errors when either operand is
below min" is false for weekday-name operands: `"SUN-3"` as a
day-of-month field (min 1) resolves `SUN` to `0`, skips the bound check,
and returns `Ok {0, 1, 2, 3}` although `0 < 1 = min`. -/
theorem c7_counterexample :
    parse_cron_value "SUN".toList 1 31 = .ok 0 ∧
    parse_field "SUN-3" 1 31 = .ok {0, 1, 2, 3} ∧ (0 : Nat) ∉ Finset.Icc 1 31 := by
  refine ⟨by decide, by decide, by decide⟩

/-- C7 (amended): for a segment `a-b` whose operands resolve through
`parse_cron_value` (numeric literals are checked against `[min,max]`,
weekday names resolve to 0–6 bypassing the check), the result is exactly
`{a, …, b}`, with an error when `a > b`; a numeric operand outside
`[min, max]` — in either position — is a value error; a second `-` in
the same segment is an error. -/
theorem c7_amended_range :
    (∀ (mn mx : Nat) (sa sb : String) (a b : Nat),
      parse_cron_value sa.toList mn mx = .ok a →
      parse_cron_value sb.toList mn mx = .ok b →
      parse_field (sa ++ "-" ++ sb) mn mx =
        if a > b then .error .InvalidRange else .ok (Finset.Icc a b)) ∧
    (∀ (mn mx : Nat) (sa sb sc : String) (a b c : Nat),
      parse_cron_value sa.toList mn mx = .ok a →
      parse_cron_value sb.toList mn mx = .ok b →
      parse_cron_value sc.toList mn mx = .ok c →
      parse_field (sa ++ "-" ++ sb ++ "-" ++ sc) mn mx = .error .InvalidRange) ∧
    (∀ (mn mx : Nat) (sa sb : String) (a b : Nat),
      parseU32 sa.toList = .ok a → (a < mn ∨ mx < a) →
      parse_cron_value sb.toList mn mx = .ok b →
      parse_field (sa ++ "-" ++ sb) mn mx = .error .InvalidValue) ∧
    (∀ (mn mx : Nat) (sa sb : String) (a b : Nat),
      parse_cron_value sa.toList mn mx = .ok a →
      parseU32 sb.toList = .ok b → (b < mn ∨ mx < b) →
      parse_field (sa ++ "-" ++ sb) mn mx = .error .InvalidValue) :=
  ⟨fun _ _ _ _ _ _ ha hb => parse_field_range ha hb,
   fun _ _ _ _ _ _ _ _ ha hb hc => parse_field_double_dash ha hb hc,
   fun _ _ _ _ _ _ ha hout hb => parse_field_range_start_err ha hout hb,
   fun _ _ _ _ _ _ ha hb hout => parse_field_range_end_err ha hb hout⟩

/-- Witness for C7 (amended): `"40-50"` over `[0,59]` is `{40,…,50}`,
`"50-40"` is a range error, `"1-2-3"` is a range error, and the
out-of-range numeric operands in `"61-50"` and `"5-99"` are value
errors. -/
theorem c7_witness :
    parse_field ("40" ++ "-" ++ "50") 0 59 = .ok (Finset.Icc 40 50) ∧
    parse_field ("50" ++ "-" ++ "40") 0 59 = .error .InvalidRange ∧
    parse_field ("1" ++ "-" ++ "2" ++ "-" ++ "3") 0 59 = .error .InvalidRange ∧
    parse_field ("61" ++ "-" ++ "50") 0 59 = .error .InvalidValue ∧
    parse_field ("5" ++ "-" ++ "99") 0 59 = .error .InvalidValue := by
  refine ⟨?_, ?_, ?_, ?_, ?_⟩
  · have h := c7_amended_range.1 0 59 "40" "50" 40 50 (by decide) (by decide)
    rw [if_neg (by decide)] at h
    exact h
  · have h := c7_amended_range.1 0 59 "50" "40" 50 40 (by decide) (by decide)
    rw [if_pos (by decide)] at h
    exact h
  · exact c7_amended_range.2.1 0 59 "1" "2" "3" 1 2 3 (by decide) (by decide)
      (by decide)
  · exact c7_amended_range.2.2.1 0 59 "61" "50" 61 50 (by decide) (by decide)
      (by decide)
  · exact c7_amended_range.2.2.2 0 59 "5" "99" 5 99 (by decide) (by decide)
      (by decide)

end CronParser

namespace CronParser

set_option maxRecDepth 40000 in
/-- C8 counterexample: "a malformed field's parse error is returned for
every reference instant" is false.  In `"x * 31 2 *"` the minute field
`"x"` is malformed, but the month/day constraints (February 31st) never
admit a candidate, so the loop never reaches the minute check and
`parse` returns the horizon error `InvalidCron` instead of the numeric
conversion error. -/
theorem c8_counterexample :
    parse_field "x" 0 59 = .error (.ParseIntError .InvalidDigit) ∧
    parse utcTZ "x * 31 2 *" ref2019 = some (.error .InvalidCron) ∧
    ParseError.InvalidCron ≠ .ParseIntError .InvalidDigit := by
  refine ⟨by decide, by rfl, by decide⟩

/-- C8 (amended): field sets are re-derived from the original text on
every iteration, and a malformed field's parse error is returned
deterministically on its first use: a malformed month field errors on
the first iteration for every valid reference; a malformed later field
errors on the first iteration whenever the fields checked before it are
`*` (in general its error can be masked by the horizon error when
earlier constraints never admit a candidate). -/
theorem c8_amended_first_use_errors :
    (∀ (tz : Timezone) (cron : String) (dt : ZonedDT)
      (ms hs ds mos dws : String) (e : ParseError),
      splitWs cron = [ms, hs, ds, mos, dws] → dt.civil.Valid →
      parse_field mos 1 12 = .error e → parse tz cron dt = some (.error e)) ∧
    (∀ (tz : Timezone) (cron : String) (dt : ZonedDT)
      (ms hs ds dws : String) (e : ParseError),
      splitWs cron = [ms, hs, ds, "*", dws] → dt.civil.Valid →
      parse_field ds 1 31 = .error e → parse tz cron dt = some (.error e)) ∧
    (∀ (tz : Timezone) (cron : String) (dt : ZonedDT)
      (ms hs dws : String) (e : ParseError),
      splitWs cron = [ms, hs, "*", "*", dws] → dt.civil.Valid →
      parse_field hs 0 23 = .error e → parse tz cron dt = some (.error e)) ∧
    (∀ (tz : Timezone) (cron : String) (dt : ZonedDT)
      (ms dws : String) (e : ParseError),
      splitWs cron = [ms, "*", "*", "*", dws] → dt.civil.Valid →
      parse_field ms 0 59 = .error e → parse tz cron dt = some (.error e)) ∧
    (∀ (tz : Timezone) (cron : String) (dt : ZonedDT)
      (dws : String) (e : ParseError),
      splitWs cron = ["*", "*", "*", "*", dws] → dt.civil.Valid →
      parse_field dws 0 6 = .error e → parse tz cron dt = some (.error e)) := by
  refine ⟨?_, ?_, ?_, ?_, ?_⟩
  · intro tz cron dt ms hs ds mos dws e hsplit hv he
    have hy := initAdv_year dt.civil
    rw [parse_eq_loop hsplit hv, FUEL_succ, parseLoop_succ,
      loopStep_month_err (by omega) he]
  · intro tz cron dt ms hs ds dws e hsplit hv he
    have hy := initAdv_year dt.civil
    rw [parse_eq_loop hsplit hv, FUEL_succ, parseLoop_succ,
      loopStep_dom_err (initAdv_valid hv) (by omega) he]
  · intro tz cron dt ms hs dws e hsplit hv he
    have hy := initAdv_year dt.civil
    rw [parse_eq_loop hsplit hv, FUEL_succ, parseLoop_succ,
      loopStep_hour_err (initAdv_valid hv) (by omega) he]
  · intro tz cron dt ms dws e hsplit hv he
    have hy := initAdv_year dt.civil
    rw [parse_eq_loop hsplit hv, FUEL_succ, parseLoop_succ,
      loopStep_minute_err (initAdv_valid hv) (by omega) he]
  · intro tz cron dt dws e hsplit hv he
    have hy := initAdv_year dt.civil
    rw [parse_eq_loop hsplit hv, FUEL_succ, parseLoop_succ,
      loopStep_dow_err (initAdv_valid hv) (by omega) he]

/-- Witness for C8 (amended): `"x * * * *"` (malformed minute field,
other checked fields `*`) returns the numeric conversion error at once. -/
theorem c8_witness :
    parse utcTZ "x * * * *" ref2019 =
      some (.error (.ParseIntError .InvalidDigit)) :=
  c8_amended_first_use_errors.2.2.2.1 utcTZ "x * * * *" ref2019 "x" "*"
    (.ParseIntError .InvalidDigit) (by decide) (by decide) (by decide)

set_option maxRecDepth 40000 in
/-- C9 counterexample: the claim "two different conditions never produce
the same error value — in particular horizon exhaustion is distinct from
the wrong-field-count syntax error" is false: a four-field expression
and the unsatisfiable-within-horizon `"0 0 30 2 *"` both return
`ParseError::InvalidCron`. -/
theorem c9_counterexample :
    parse utcTZ "* * * *" ref2019 = some (.error .InvalidCron) ∧
    parse utcTZ "0 0 30 2 *" ref2019 = some (.error .InvalidCron) := by
  refine ⟨by rfl, by rfl⟩

set_option maxRecDepth 40000 in
/-- C9 (amended): the error conditions map onto four distinct kinds, with
collisions: a numeric parsing failure is `ParseIntError`; an
out-of-range literal and a zero or over-range step are both
`InvalidValue`; a reversed range and a malformed range/step combination
(a second `-` or `/` in one segment) are both `InvalidRange`; the wrong
field count and horizon exhaustion are both `InvalidCron`.  The four
kinds are pairwise distinct. -/
theorem c9_amended_error_mapping :
    parse_field "abc" 0 59 = .error (.ParseIntError .InvalidDigit) ∧
    parse_field "99" 0 59 = .error .InvalidValue ∧
    parse_field "*/0" 0 59 = .error .InvalidValue ∧
    parse_field "*/90" 0 59 = .error .InvalidValue ∧
    parse_field "5-1" 0 59 = .error .InvalidRange ∧
    parse_field "1-2-3" 0 59 = .error .InvalidRange ∧
    parse_field "1/2/3" 0 59 = .error .InvalidRange ∧
    parse utcTZ "* * * *" ref2019 = some (.error .InvalidCron) ∧
    parse utcTZ "0 0 30 2 *" ref2019 = some (.error .InvalidCron) ∧
    (ParseError.ParseIntError .InvalidDigit ≠ .InvalidValue ∧
      ParseError.ParseIntError .InvalidDigit ≠ .InvalidRange ∧
      ParseError.ParseIntError .InvalidDigit ≠ .InvalidCron ∧
      ParseError.InvalidValue ≠ .InvalidRange ∧
      ParseError.InvalidValue ≠ .InvalidCron ∧
      ParseError.InvalidRange ≠ .InvalidCron) := by
  refine ⟨by decide, by decide, by decide, by decide, by decide, by decide,
    by decide, by rfl, by rfl, by decide⟩

end CronParser
